import Mathlib

/-!
Shallow embedding of the configuration-resolution layer of the
`smartpricer/flag` repository (src/extras.go), which extends the standard
flag registry with environment-variable and config-file value sources.

Modelling conventions:
  * Go strings are modelled by Lean `String`, operated on at the character
    level (all delimiters and replaced characters in the source are ASCII,
    so byte-index splits coincide with character-index splits).
  * Go maps (`f.formal`, `f.actual`, the environment table) are modelled
    by association lists `List (String × α)` with first-match lookup and
    overwrite-on-insert; Go map iteration in a loop is modelled by list
    order.
  * The mutable registry state is a `FlagSet` record threaded explicitly;
    a flag's typed setter `flag.Value.Set` is modelled by a validation
    predicate `setOk : String → Bool` together with a `values` map that
    records the raw string last stored per flag name (a failing setter
    stores nothing).
  * File I/O (`os.ReadFile`, `os.Open`) is modelled by a filesystem oracle
    passed as a parameter; `bufio.Scanner` line splitting is modelled by
    handing the plain-text parser its list of lines.
  * `fmt`-formatted error returns are modelled by a structured `Err`
    inductive carrying the same data the format string interpolates.
-/

namespace SmartFlag

/-- Character-level replacement of every occurrence of one character,
modelling Go `strings.Replace(s, from, to, -1)` for a one-character
pattern. -/
def replaceChar (s : String) (c r : Char) : String :=
  ⟨s.data.map (fun x => if x = c then r else x)⟩

/-- Go `strings.ToUpper` restricted to ASCII flag names (the repository
uses ASCII flag names throughout). -/
def goToUpper (s : String) : String :=
  ⟨s.data.map Char.toUpper⟩

/-- Go `unicode.IsSpace` restricted to the ASCII whitespace characters. -/
def goIsSpace (c : Char) : Bool :=
  c == ' ' || c == '\t' || c == '\n' || c == '\x0b' || c == '\x0c' || c == '\r'

/-- Go `strings.TrimSpace`: strip leading and trailing whitespace. -/
def trimSpace (s : String) : String :=
  ⟨((s.data.dropWhile goIsSpace).reverse.dropWhile goIsSpace).reverse⟩

/-- Association-list lookup (first match wins), modelling Go map read. -/
def mapGet {α : Type} (m : List (String × α)) (k : String) : Option α :=
  (m.find? (fun p => p.1 == k)).map (·.2)

/-- Association-list overwrite-insert, modelling Go map write `m[k] = v`. -/
def mapSet {α : Type} (m : List (String × α)) (k : String) (v : α) :
    List (String × α) :=
  (k, v) :: m.filter (fun p => p.1 != k)

/-- Index of the first `'='` in a string, modelling Go
`strings.Index(s, "=")` (`none` for Go's `-1`). -/
def firstEqIdx (s : String) : Option Nat :=
  s.data.findIdx? (fun c => c == '=')

/-- src/extras.go `parseEnvToMap`: build the environment table from raw
`KEY=VALUE` strings, silently skipping entries whose first `'='` is absent
or at index 0. -/
def parseEnvToMap (environ : List String) : List (String × String) :=
  environ.foldl
    (fun env s =>
      match firstEqIdx s with
      | none => env
      | some i =>
        if i < 1 then env
        else mapSet env ⟨s.data.take i⟩ ⟨s.data.drop (i + 1)⟩)
    []

/-- src/extras.go `flagNameToEnvKey`: uppercase, prepend the prefix (when
non-empty) with `"_"`, then replace every `'-'` and every `'.'` with
`'_'`. -/
def flagNameToEnvKey (name envPfx : String) : String :=
  let envKey := goToUpper name
  let envKey := if envPfx ≠ "" then envPfx ++ "_" ++ envKey else envKey
  let envKey := replaceChar envKey '-' '_'
  replaceChar envKey '.' '_'

/-- Reference definition of the Name Mapper written from the spec's words
(section 4.2): uppercase the flag name; if the prefix is non-empty prepend
`prefix ++ "_"`; replace every `'-'` and `'.'` in the result with `'_'`,
here done in a single character pass. -/
def toEnvKey_specRef (name envPfx : String) : String :=
  let upper : List Char := name.data.map Char.toUpper
  let withPfx : List Char :=
    if envPfx = "" then upper else envPfx.data ++ '_' :: upper
  ⟨withPfx.map (fun c => if c = '-' ∨ c = '.' then '_' else c)⟩

/-- A registered flag: its name, whether its value implements the
boolean-flag capability (`boolFlag` with `IsBoolFlag() == true`), and the
validation predicate of its typed setter (`Value.Set` succeeds iff
`setOk` holds). -/
structure Flag where
  name : String
  isBoolFlag : Bool
  setOk : String → Bool

/-- The registry state visible to src/extras.go: the registered-flags
table `formal`, the applied-flags ledger `actual`, the raw string each
flag's setter last accepted (`values`), the extras configuration, and
whether `f.usage()` has been invoked. -/
structure FlagSet where
  formal : List Flag
  actual : List (String × Flag)
  values : List (String × String)
  envPfx : String
  readUnderscoreFile : Bool
  trimFileContent : Bool
  usageCalled : Bool

/-- Structured model of the `error` values src/extras.go returns: each
constructor corresponds to one `failf`/`fmt.Errorf` call site (or to
`ErrHelp`) and carries the data its format string interpolates. -/
inductive Err where
  | help
  | envVarNotDefined (name : String)
  | emptyUnderscoreFile
  | couldNotReadFile (path key : String)
  | invalidBoolEnv (value name : String)
  | invalidValueEnv (value name : String)
  | configVarNotDefined (name : String)
  | invalidBoolConfig (value name : String)
  | invalidValueConfig (value name : String)
  | invalidValueYAMLLine (value name : String) (line : Nat)
deriving DecidableEq

/-- Record a successful `Set` of raw string `v` on the flag named `k`. -/
def setValue (f : FlagSet) (k v : String) : FlagSet :=
  { f with values := mapSet f.values k v }

/-- Record `f.actual[name] = flag` (add to the applied-flags ledger). -/
def markApplied (f : FlagSet) (name : String) (flag : Flag) : FlagSet :=
  { f with actual := mapSet f.actual name flag }

/-- Record that `f.usage()` ran. -/
def emitUsage (f : FlagSet) : FlagSet :=
  { f with usageCalled := true }

/-- src/extras.go lines 126–148: apply a resolved environment value to a
flag. A boolean-capability flag with an empty value is force-set to
`"true"` with the setter's error ignored; otherwise the value goes
through the validating setter and a rejection aborts with an
environment-variable error naming the raw value and the flag. On every
non-error path the flag is added to the ledger. -/
def applyEnvValue (f : FlagSet) (flag : Flag) (name envValue : String) :
    FlagSet × Option Err :=
  let isEmpty := envValue.length ≤ 0
  if flag.isBoolFlag then
    if ¬ isEmpty then
      if flag.setOk envValue then
        (markApplied (setValue f name envValue) name flag, none)
      else
        (f, some (.invalidBoolEnv envValue name))
    else
      let f' := if flag.setOk "true" then setValue f name "true" else f
      (markApplied f' name flag, none)
  else
    if flag.setOk envValue then
      (markApplied (setValue f name envValue) name flag, none)
    else
      (f, some (.invalidValueEnv envValue name))

/-- src/extras.go lines 79–148: the body of the `ParseEnv` loop for one
registered flag, given the filesystem oracle `fsys` and the environment
table `env`. -/
def processEnvFlag (fsys : String → Option String)
    (env : List (String × String)) (f : FlagSet) (registeredFlag : Flag) :
    FlagSet × Option Err :=
  let name := registeredFlag.name
  if (mapGet f.actual name).isSome then (f, none)
  else
    match f.formal.find? (fun g => g.name == name) with
    | none =>
      if name == "help" || name == "h" then (emitUsage f, some .help)
      else (f, some (.envVarNotDefined name))
    | some flag =>
      let envKey := flagNameToEnvKey flag.name f.envPfx
      match mapGet env envKey with
      | some envValue => applyEnvValue f flag name envValue
      | none =>
        if ¬ f.readUnderscoreFile then (f, none)
        else
          let envKey' := envKey ++ "_FILE"
          match mapGet env envKey' with
          | none => (f, none)
          | some path =>
            if path.length ≤ 0 then (f, some .emptyUnderscoreFile)
            else
              match fsys path with
              | none => (f, some (.couldNotReadFile path envKey'))
              | some fileBytes =>
                let envValue :=
                  if f.trimFileContent then trimSpace fileBytes else fileBytes
                applyEnvValue f flag name envValue

/-- The `ParseEnv` loop over the registered flags, stopping at the first
error as the Go `return` does. -/
def parseEnvLoop (fsys : String → Option String)
    (env : List (String × String)) :
    FlagSet → List Flag → FlagSet × Option Err
  | f, [] => (f, none)
  | f, g :: rest =>
    match processEnvFlag fsys env f g with
    | (f', none) => parseEnvLoop fsys env f' rest
    | (f', some e) => (f', some e)

/-- src/extras.go `ParseEnv`: build the environment table and iterate over
the registered flags. -/
def ParseEnv (fsys : String → Option String) (f : FlagSet)
    (environ : List String) : FlagSet × Option Err :=
  parseEnvLoop fsys (parseEnvToMap environ) f f.formal

/-- The reverse Name Mapper loop shared by the two file parsers
(src/extras.go lines 209–214 and 310–315): rewrite a parsed name to the
first registered flag name whose computed environment key equals it;
leave it unchanged when no registered name matches. -/
def reverseMapName (formal : List Flag) (envPfx name : String) : String :=
  match formal.find? (fun g => flagNameToEnvKey g.name envPfx == name) with
  | some g => g.name
  | none => name

/-- Index of the first `'='`, `' '` or `':'` in a line (the plain-text
delimiter scan of src/extras.go lines 203–204). -/
def findDelimIdx (line : String) : Option Nat :=
  line.data.findIdx? (fun c => c == '=' || c == ' ' || c == ':')

/-- src/extras.go lines 200–221 without the reverse name mapping: split a
non-skipped line at the first delimiter into a trimmed name, a trimmed
value and `hasValue = true`; with no delimiter the whole line is the name,
the value stays `""` and `hasValue = false`. -/
def splitLine (line : String) : String × String × Bool :=
  match findDelimIdx line with
  | some i => (trimSpace ⟨line.data.take i⟩, trimSpace ⟨line.data.drop (i + 1)⟩, true)
  | none => (line, "", false)

/-- src/extras.go lines 188–257: process one line of a plain-text config
file. Blank lines, lines starting with `'#'` and the literal `"---"` are
skipped; otherwise the line is split, the name reverse-mapped (only in
the delimiter branch, as in the source), the ledger consulted, the
registry looked up (with the `help`/`h` carve-out), and the value applied
with the boolean-capability special case. -/
def processTextLine (f : FlagSet) (line : String) : FlagSet × Option Err :=
  if line.length = 0 then (f, none)
  else if line.data.head? = some '#' ∨ line = "---" then (f, none)
  else
    let parsed := splitLine line
    let hasValue := parsed.2.2
    let value := parsed.2.1
    let name :=
      if hasValue then reverseMapName f.formal f.envPfx parsed.1 else parsed.1
    if (mapGet f.actual name).isSome then (f, none)
    else
      match f.formal.find? (fun g => g.name == name) with
      | none =>
        if name == "help" || name == "h" then (emitUsage f, some .help)
        else (f, some (.configVarNotDefined name))
      | some flag =>
        if flag.isBoolFlag then
          if hasValue then
            if flag.setOk value then
              (markApplied (setValue f name value) name flag, none)
            else (f, some (.invalidBoolConfig value name))
          else
            let f' := if flag.setOk "true" then setValue f name "true" else f
            (markApplied f' name flag, none)
        else
          if flag.setOk value then
            (markApplied (setValue f name value) name flag, none)
          else (f, some (.invalidValueConfig value name))

/-- The `parseFile_PlainText` scanner loop over the file's lines, stopping
at the first error as the Go `return` does. -/
def parseTextLoop : FlagSet → List String → FlagSet × Option Err
  | f, [] => (f, none)
  | f, l :: rest =>
    match processTextLine f l with
    | (f', none) => parseTextLoop f' rest
    | (f', some e) => (f', some e)

/-- A decoded YAML node as the `yaml.v3` decoder hands it to
`yamlValue.UnmarshalYAML`: its kind, its raw scalar text (`Node.Value`,
the original textual form, empty for non-scalars) and its source line. -/
inductive YamlKind where
  | scalar
  | mapping
  | sequence
deriving DecidableEq

/-- A YAML node passed to `UnmarshalYAML`. -/
structure YamlNode where
  kind : YamlKind
  text : String
  line : Nat

/-- The per-key cell `yamlValue` after `UnmarshalYAML` ran: the recorded
scalar string, whether a decode error was recorded, and the node's line. -/
structure yamlValue where
  value : String
  err : Bool
  line : Nat

/-- src/extras.go lines 277–288 `yamlValue.UnmarshalYAML`: a non-scalar
node records a decode error and leaves the value empty; a scalar node
records the node's original textual value. -/
def unmarshalYAML (node : YamlNode) : yamlValue :=
  if node.kind ≠ .scalar then { value := "", err := true, line := node.line }
  else { value := node.text, err := false, line := node.line }

/-- src/extras.go lines 307–347: process one key of the decoded YAML root
mapping — reverse-map the name, consult the ledger, look up the registry
(with the `help`/`h` carve-out), forward a recorded decode error with the
cell's line number, else pass the recorded scalar string to the setter. -/
def processYamlEntry (f : FlagSet) (name0 : String) (cell : yamlValue) :
    FlagSet × Option Err :=
  let name := reverseMapName f.formal f.envPfx name0
  if (mapGet f.actual name).isSome then (f, none)
  else
    match f.formal.find? (fun g => g.name == name) with
    | none =>
      if name == "help" || name == "h" then (emitUsage f, some .help)
      else (f, some (.configVarNotDefined name))
    | some flag =>
      if cell.err then (f, some (.invalidValueYAMLLine cell.value name cell.line))
      else
        if flag.setOk cell.value then
          (markApplied (setValue f name cell.value) name flag, none)
        else (f, some (.invalidValueConfig cell.value name))

/-- The `parseFile_YAML` loop over the decoded root mapping's entries
(each entry's cell produced by `unmarshalYAML`), stopping at the first
error. -/
def parseYamlLoop : FlagSet → List (String × YamlNode) → FlagSet × Option Err
  | f, [] => (f, none)
  | f, (k, node) :: rest =>
    match processYamlEntry f k (unmarshalYAML node) with
    | (f', none) => parseYamlLoop f' rest
    | (f', some e) => (f', some e)

/-! ### Association-list map lemmas -/

theorem find?_filter_ne {α : Type} (m : List (String × α)) (k k' : String)
    (h : k' ≠ k) :
    (m.filter (fun p => p.1 != k)).find? (fun p => p.1 == k') =
      m.find? (fun p => p.1 == k') := by
  induction m with
  | nil => rfl
  | cons a as ih =>
    by_cases hak : a.1 = k
    · have h1 : (a.1 != k) = false := by simp [hak]
      have h2 : (a.1 == k') = false := by
        simp only [hak, beq_eq_false_iff_ne, ne_eq]
        exact fun hh => h hh.symm
      simp [List.filter_cons, List.find?, h1, h2, ih]
    · have h1 : (a.1 != k) = true := by simp [hak]
      by_cases hak' : a.1 = k'
      · have h2 : (a.1 == k') = true := by simp [hak']
        simp [List.filter_cons, List.find?, h1, h2]
      · have h2 : (a.1 == k') = false := by simp [hak']
        simp [List.filter_cons, List.find?, h1, h2, ih]

theorem mapGet_mapSet {α : Type} (m : List (String × α)) (k k' : String)
    (v : α) :
    mapGet (mapSet m k v) k' = if k' = k then some v else mapGet m k' := by
  by_cases h : k' = k
  · subst h
    simp [mapGet, mapSet]
  · simp only [if_neg h, mapGet, mapSet]
    have h2 : ((k, v).1 == k') = false := by
      simp only [beq_eq_false_iff_ne, ne_eq]
      exact fun hh => h hh.symm
    rw [show List.find? (fun p => p.1 == k') ((k, v) :: List.filter (fun p => p.1 != k) m) =
        List.find? (fun p => p.1 == k') (List.filter (fun p => p.1 != k) m) from by
      simp [List.find?, h2]]
    rw [find?_filter_ne _ _ _ h]

/-! ### TrimSpace structure -/

theorem trimSpace_strips_only_ends (s : String) :
    ∃ pre post : List Char,
      s.data = pre ++ (trimSpace s).data ++ post ∧
        pre.all goIsSpace ∧ post.all goIsSpace := by
  refine ⟨s.data.takeWhile goIsSpace,
    (((s.data.dropWhile goIsSpace).reverse.takeWhile goIsSpace)).reverse,
    ?_, ?_, ?_⟩
  · conv_lhs => rw [← List.takeWhile_append_dropWhile (p := goIsSpace) (l := s.data)]
    have h2 : s.data.dropWhile goIsSpace =
        ((s.data.dropWhile goIsSpace).reverse.dropWhile goIsSpace).reverse ++
          ((s.data.dropWhile goIsSpace).reverse.takeWhile goIsSpace).reverse := by
      rw [← List.reverse_append, List.takeWhile_append_dropWhile, List.reverse_reverse]
    rw [List.append_assoc]
    exact congrArg _ h2
  · simp only [List.all_eq_true]
    exact fun c hc => List.mem_takeWhile_imp hc
  · simp only [List.all_eq_true, List.mem_reverse]
    exact fun c hc => List.mem_takeWhile_imp hc

/-! ### Preservation of ledgered flags through each stage -/

/-- One stage step or stage preserves the registry's formal table, keeps
every ledgered name ledgered, and leaves the stored value of every
ledgered name untouched. -/
def Preserves (f g : FlagSet) : Prop :=
  g.formal = f.formal ∧
    (∀ n, (mapGet f.actual n).isSome → (mapGet g.actual n).isSome) ∧
    (∀ n, (mapGet f.actual n).isSome → mapGet g.values n = mapGet f.values n)

theorem preserves_refl (f : FlagSet) : Preserves f f :=
  ⟨rfl, fun _ h => h, fun _ _ => rfl⟩

theorem preserves_trans {f g h : FlagSet} (h1 : Preserves f g)
    (h2 : Preserves g h) : Preserves f h :=
  ⟨h2.1.trans h1.1, fun n hn => h2.2.1 n (h1.2.1 n hn),
    fun n hn => (h2.2.2 n (h1.2.1 n hn)).trans (h1.2.2 n hn)⟩

theorem preserves_emitUsage (f : FlagSet) : Preserves f (emitUsage f) :=
  ⟨rfl, fun _ h => h, fun _ _ => rfl⟩

theorem preserves_write (f : FlagSet) (flag : Flag) (name : String)
    (hname : mapGet f.actual name = none) (g : FlagSet)
    (hform : g.formal = f.formal)
    (hact : g.actual = mapSet f.actual name flag)
    (hval : g.values = f.values ∨ ∃ v, g.values = mapSet f.values name v) :
    Preserves f g := by
  refine ⟨hform, ?_, ?_⟩
  · intro n hn
    have hne : n ≠ name := by
      intro he; rw [he, hname] at hn; exact absurd hn (by simp)
    rw [hact, mapGet_mapSet, if_neg hne]
    exact hn
  · intro n hn
    have hne : n ≠ name := by
      intro he; rw [he, hname] at hn; exact absurd hn (by simp)
    rcases hval with h | ⟨v, h⟩
    · rw [h]
    · rw [h, mapGet_mapSet, if_neg hne]

theorem applyEnvValue_preserves (f : FlagSet) (flag : Flag)
    (name envValue : String) (hname : mapGet f.actual name = none) :
    Preserves f (applyEnvValue f flag name envValue).1 := by
  unfold applyEnvValue
  dsimp only
  split
  · split
    · split
      · exact preserves_write f flag name hname _ rfl rfl (Or.inr ⟨envValue, rfl⟩)
      · exact preserves_refl f
    · split
      · exact preserves_write f flag name hname _ rfl rfl (Or.inr ⟨"true", rfl⟩)
      · exact preserves_write f flag name hname _ rfl rfl (Or.inl rfl)
  · split
    · exact preserves_write f flag name hname _ rfl rfl (Or.inr ⟨envValue, rfl⟩)
    · exact preserves_refl f

theorem processEnvFlag_preserves (fsys : String → Option String)
    (env : List (String × String)) (f : FlagSet) (g : Flag) :
    Preserves f (processEnvFlag fsys env f g).1 := by
  unfold processEnvFlag
  dsimp only
  cases hmg : (mapGet f.actual g.name).isSome with
  | true => simp only [hmg, if_true]; exact preserves_refl f
  | false =>
    have hnone : mapGet f.actual g.name = none := by
      cases hv : mapGet f.actual g.name with
      | none => rfl
      | some x => rw [hv] at hmg; simp at hmg
    simp only [hmg, Bool.false_eq_true, if_false]
    cases hfind : f.formal.find? (fun g' => g'.name == g.name) with
    | none =>
      dsimp only
      split
      · exact preserves_emitUsage f
      · exact preserves_refl f
    | some flag =>
      dsimp only
      cases henv : mapGet env (flagNameToEnvKey flag.name f.envPfx) with
      | some envValue =>
        dsimp only
        exact applyEnvValue_preserves f flag g.name envValue hnone
      | none =>
        dsimp only
        split
        · exact preserves_refl f
        · cases hfile :
            mapGet env (flagNameToEnvKey flag.name f.envPfx ++ "_FILE") with
          | none => exact preserves_refl f
          | some path =>
            dsimp only
            split
            · exact preserves_refl f
            · cases hread : fsys path with
              | none => exact preserves_refl f
              | some fileBytes =>
                dsimp only
                exact applyEnvValue_preserves f flag g.name _ hnone

theorem parseEnvLoop_preserves (fsys : String → Option String)
    (env : List (String × String)) (todo : List Flag) (f : FlagSet) :
    Preserves f (parseEnvLoop fsys env f todo).1 := by
  induction todo generalizing f with
  | nil => exact preserves_refl f
  | cons g rest ih =>
    unfold parseEnvLoop
    cases hstep : processEnvFlag fsys env f g with
    | mk f' e =>
      have hpres : Preserves f f' := by
        have := processEnvFlag_preserves fsys env f g
        rw [hstep] at this
        exact this
      cases e with
      | none => exact preserves_trans hpres (ih f')
      | some err => exact hpres

theorem ParseEnv_preserves (fsys : String → Option String) (f : FlagSet)
    (environ : List String) : Preserves f (ParseEnv fsys f environ).1 :=
  parseEnvLoop_preserves fsys (parseEnvToMap environ) f.formal f

theorem processTextLine_preserves (f : FlagSet) (line : String) :
    Preserves f (processTextLine f line).1 := by
  unfold processTextLine
  dsimp only
  split
  · exact preserves_refl f
  · split
    · exact preserves_refl f
    · set name :=
        if (splitLine line).2.2 then
          reverseMapName f.formal f.envPfx (splitLine line).1
        else (splitLine line).1 with hname
      cases hmg : (mapGet f.actual name).isSome with
      | true => simp only [hmg, if_true]; exact preserves_refl f
      | false =>
        have hnone : mapGet f.actual name = none := by
          cases hv : mapGet f.actual name with
          | none => rfl
          | some x => rw [hv] at hmg; simp at hmg
        simp only [hmg, Bool.false_eq_true, if_false]
        cases hfind : f.formal.find? (fun g => g.name == name) with
        | none =>
          dsimp only
          split
          · exact preserves_emitUsage f
          · exact preserves_refl f
        | some flag =>
          dsimp only
          split
          · split
            · split
              · exact preserves_write f flag name hnone _ rfl rfl
                  (Or.inr ⟨(splitLine line).2.1, rfl⟩)
              · exact preserves_refl f
            · split
              · exact preserves_write f flag name hnone _ rfl rfl
                  (Or.inr ⟨"true", rfl⟩)
              · exact preserves_write f flag name hnone _ rfl rfl (Or.inl rfl)
          · split
            · exact preserves_write f flag name hnone _ rfl rfl
                (Or.inr ⟨(splitLine line).2.1, rfl⟩)
            · exact preserves_refl f

theorem parseTextLoop_preserves (lines : List String) (f : FlagSet) :
    Preserves f (parseTextLoop f lines).1 := by
  induction lines generalizing f with
  | nil => exact preserves_refl f
  | cons l rest ih =>
    unfold parseTextLoop
    cases hstep : processTextLine f l with
    | mk f' e =>
      have hpres : Preserves f f' := by
        have := processTextLine_preserves f l
        rw [hstep] at this
        exact this
      cases e with
      | none => exact preserves_trans hpres (ih f')
      | some err => exact hpres

theorem processYamlEntry_preserves (f : FlagSet) (name0 : String)
    (cell : yamlValue) : Preserves f (processYamlEntry f name0 cell).1 := by
  unfold processYamlEntry
  dsimp only
  set name := reverseMapName f.formal f.envPfx name0 with hname
  cases hmg : (mapGet f.actual name).isSome with
  | true => simp only [hmg, if_true]; exact preserves_refl f
  | false =>
    have hnone : mapGet f.actual name = none := by
      cases hv : mapGet f.actual name with
      | none => rfl
      | some x => rw [hv] at hmg; simp at hmg
    simp only [hmg, Bool.false_eq_true, if_false]
    cases hfind : f.formal.find? (fun g => g.name == name) with
    | none =>
      dsimp only
      split
      · exact preserves_emitUsage f
      · exact preserves_refl f
    | some flag =>
      dsimp only
      split
      · exact preserves_refl f
      · split
        · exact preserves_write f flag name hnone _ rfl rfl
            (Or.inr ⟨cell.value, rfl⟩)
        · exact preserves_refl f

theorem parseYamlLoop_preserves (entries : List (String × YamlNode))
    (f : FlagSet) : Preserves f (parseYamlLoop f entries).1 := by
  induction entries generalizing f with
  | nil => exact preserves_refl f
  | cons kv rest ih =>
    unfold parseYamlLoop
    cases hstep : processYamlEntry f kv.1 (unmarshalYAML kv.2) with
    | mk f' e =>
      have hpres : Preserves f f' := by
        have := processYamlEntry_preserves f kv.1 (unmarshalYAML kv.2)
        rw [hstep] at this
        exact this
      cases e with
      | none => exact preserves_trans hpres (ih f')
      | some err => exact hpres

/-! ### The unknown-name branch of ParseEnv -/

/-- Classifier for the two results of `ParseEnv`'s defensive unknown-name
branch (src/extras.go lines 92–98): the "environment variable provided
but not defined" error and `ErrHelp`. -/
def isEnvUnknownOrHelpErr : Option Err → Bool
  | some (Err.envVarNotDefined _) => true
  | some Err.help => true
  | _ => false

theorem applyEnvValue_not_unknown (f : FlagSet) (flag : Flag)
    (name envValue : String) :
    isEnvUnknownOrHelpErr (applyEnvValue f flag name envValue).2 = false := by
  unfold applyEnvValue
  dsimp only
  split
  · split
    · split <;> rfl
    · rfl
  · split <;> rfl

theorem processEnvFlag_not_unknown (fsys : String → Option String)
    (env : List (String × String)) (f : FlagSet) (g : Flag)
    (hg : g ∈ f.formal) :
    isEnvUnknownOrHelpErr (processEnvFlag fsys env f g).2 = false := by
  unfold processEnvFlag
  dsimp only
  cases hmg : (mapGet f.actual g.name).isSome with
  | true => rfl
  | false =>
    simp only [hmg, Bool.false_eq_true, if_false]
    have hfound : (f.formal.find? (fun g' => g'.name == g.name)).isSome := by
      rw [List.find?_isSome]
      exact ⟨g, hg, by simp⟩
    cases hfind : f.formal.find? (fun g' => g'.name == g.name) with
    | none => rw [hfind] at hfound; simp at hfound
    | some flag =>
      dsimp only
      cases henv : mapGet env (flagNameToEnvKey flag.name f.envPfx) with
      | some envValue => exact applyEnvValue_not_unknown f flag g.name envValue
      | none =>
        dsimp only
        split
        · rfl
        · cases hfile :
            mapGet env (flagNameToEnvKey flag.name f.envPfx ++ "_FILE") with
          | none => rfl
          | some path =>
            dsimp only
            split
            · rfl
            · cases hread : fsys path with
              | none => rfl
              | some fileBytes =>
                dsimp only
                exact applyEnvValue_not_unknown f flag g.name _

theorem parseEnvLoop_not_unknown (fsys : String → Option String)
    (env : List (String × String)) (todo : List Flag) (f : FlagSet)
    (h : ∀ g ∈ todo, g ∈ f.formal) :
    isEnvUnknownOrHelpErr (parseEnvLoop fsys env f todo).2 = false := by
  induction todo generalizing f with
  | nil => rfl
  | cons g rest ih =>
    unfold parseEnvLoop
    cases hstep : processEnvFlag fsys env f g with
    | mk f' e =>
      cases e with
      | none =>
        have hform : f'.formal = f.formal := by
          have := (processEnvFlag_preserves fsys env f g).1
          rw [hstep] at this
          exact this
        refine ih f' (fun g' hg' => ?_)
        rw [hform]
        exact h g' (List.mem_cons_of_mem g hg')
      | some err =>
        have := processEnvFlag_not_unknown fsys env f g (h g (List.mem_cons_self g rest))
        rw [hstep] at this
        exact this

/-! ### Name Mapper reference equality -/

theorem flagNameToEnvKey_eq_specRef (n p : String) :
    flagNameToEnvKey n p = toEnvKey_specRef n p := by
  have hmaps : ∀ l : List Char,
      (l.map (fun x => if x = '-' then '_' else x)).map
          (fun x => if x = '.' then '_' else x) =
        l.map (fun c => if c = '-' ∨ c = '.' then '_' else c) := by
    intro l
    rw [List.map_map]
    refine List.map_congr_left (fun a _ => ?_)
    by_cases h1 : a = '-'
    · simp [h1, Function.comp]
    · by_cases h2 : a = '.'
      · simp [h1, h2, Function.comp]
      · simp [h1, h2, Function.comp]
  unfold flagNameToEnvKey toEnvKey_specRef goToUpper replaceChar
  by_cases hp : p = ""
  · subst hp
    simp only [ne_eq, not_true_eq_false, if_false, if_pos rfl, ite_false]
    exact congrArg String.mk (hmaps _)
  · simp only [ne_eq, hp, not_false_iff, if_true, if_neg hp, ite_true]
    refine congrArg String.mk ?_
    have hdata : (p ++ "_" ++ { data := n.data.map Char.toUpper } : String).data =
        p.data ++ '_' :: n.data.map Char.toUpper := by
      simp [String.data_append]
    rw [hdata]
    exact hmaps _

/-! ### Claim theorems -/

/-- C1: First-writer-wins via the Applied-Flags Ledger: the environment
stage never unledgers a name and never rewrites the stored value of a
ledgered name, the ledger only gains entries, and a flag already ledgered
(e.g. set from command-line arguments) keeps its value through a
subsequent environment stage followed by either file stage. -/
theorem first_writer_wins_ledger (fsys : String → Option String)
    (environ : List String) (lines : List String)
    (entries : List (String × YamlNode)) (f : FlagSet) (n : String)
    (hn : (mapGet f.actual n).isSome = true) :
    (∀ m, (mapGet f.actual m).isSome = true →
      (mapGet (ParseEnv fsys f environ).1.actual m).isSome = true) ∧
    mapGet (ParseEnv fsys f environ).1.values n = mapGet f.values n ∧
    (mapGet (parseTextLoop (ParseEnv fsys f environ).1 lines).1.actual n).isSome
      = true ∧
    mapGet (parseTextLoop (ParseEnv fsys f environ).1 lines).1.values n =
      mapGet f.values n ∧
    (mapGet (parseYamlLoop (ParseEnv fsys f environ).1 entries).1.actual n).isSome
      = true ∧
    mapGet (parseYamlLoop (ParseEnv fsys f environ).1 entries).1.values n =
      mapGet f.values n := by
  have henv := ParseEnv_preserves fsys f environ
  have htext := preserves_trans henv
    (parseTextLoop_preserves lines (ParseEnv fsys f environ).1)
  have hyaml := preserves_trans henv
    (parseYamlLoop_preserves entries (ParseEnv fsys f environ).1)
  exact ⟨fun m hm => henv.2.1 m hm, henv.2.2 n hn, htext.2.1 n hn,
    htext.2.2 n hn, hyaml.2.1 n hn, hyaml.2.2 n hn⟩

/-- C1 witness: a concrete flag set whose ledger holds `x ↦ "5"` keeps
that value through an environment pass and both (empty) file stages. -/
theorem first_writer_wins_ledger_witness :
    (mapGet (FlagSet.mk [] [("x", Flag.mk "x" false (fun _ => true))]
        [("x", "5")] "" false false false).actual "x").isSome = true ∧
    mapGet (ParseEnv (fun _ => none)
        (FlagSet.mk [] [("x", Flag.mk "x" false (fun _ => true))]
          [("x", "5")] "" false false false) []).1.values "x" =
      mapGet (FlagSet.mk [] [("x", Flag.mk "x" false (fun _ => true))]
        [("x", "5")] "" false false false).values "x" :=
  ⟨by decide,
    (first_writer_wins_ledger (fun _ => none) [] [] []
      (FlagSet.mk [] [("x", Flag.mk "x" false (fun _ => true))]
        [("x", "5")] "" false false false) "x" (by decide)).2.1⟩

/-- C2: the Name Mapper `flagNameToEnvKey` coincides with the reference
definition transcribed from the spec (uppercase, prefix injection,
delimiter normalisation); being a plain Lean function of its two
arguments it is pure, total and deterministic; and
`flagNameToEnvKey "last-name" "APP" = "APP_LAST_NAME"`. -/
theorem name_mapper_matches_reference :
    (∀ n p, flagNameToEnvKey n p = toEnvKey_specRef n p) ∧
    flagNameToEnvKey "last-name" "APP" = "APP_LAST_NAME" ∧
    toEnvKey_specRef "last-name" "APP" = "APP_LAST_NAME" :=
  ⟨flagNameToEnvKey_eq_specRef, by decide, by decide⟩

/-- C9: the Environment Map Builder binds, for a well-formed entry
`KEY=VALUE` (no `'='` inside the key, key non-empty), the key to the text
after the first `'='`; and an entry whose first `'='` is absent or at
index 0 is silently dropped — removing it from the input changes nothing. -/
theorem env_map_builder_semantics :
    (∀ (environ : List String) (k v : String),
      (∀ c ∈ k.data, (c == '=') = false) → k ≠ "" →
      mapGet (parseEnvToMap (environ ++ [⟨k.data ++ '=' :: v.data⟩])) k =
        some v) ∧
    (∀ (l1 l2 : List String) (s : String),
      firstEqIdx s = none ∨ firstEqIdx s = some 0 →
      parseEnvToMap (l1 ++ s :: l2) = parseEnvToMap (l1 ++ l2)) := by
  constructor
  · intro environ k v hk hne
    have hdata : k.data ≠ [] := by
      intro hd
      apply hne
      cases k
      simp only at hd
      subst hd
      rfl
    have hidx : firstEqIdx ⟨k.data ++ '=' :: v.data⟩ = some k.data.length := by
      unfold firstEqIdx
      rw [show (String.mk (k.data ++ '=' :: v.data)).data =
        k.data ++ '=' :: v.data from rfl]
      rw [List.findIdx?_append]
      rw [List.findIdx?_eq_none_iff.mpr hk]
      simp
    have hlen : ¬ (k.data.length < 1) := by
      simp only [Nat.lt_one_iff]
      intro h0
      exact hdata (List.length_eq_zero.mp h0)
    rw [parseEnvToMap, List.foldl_append]
    rw [show (environ.foldl _ ([] : List (String × String))) =
      parseEnvToMap environ from rfl]
    simp only [List.foldl_cons, List.foldl_nil]
    rw [hidx]
    simp only [hlen, if_false]
    have htake : (String.mk (k.data ++ '=' :: v.data)).data.take k.data.length
        = k.data := List.take_left k.data ('=' :: v.data)
    have hdrop : (String.mk (k.data ++ '=' :: v.data)).data.drop
        (k.data.length + 1) = v.data := by
      rw [show (String.mk (k.data ++ '=' :: v.data)).data =
        (k.data ++ ['=']) ++ v.data by simp]
      exact List.drop_left' (by simp)
    rw [htake, hdrop]
    rw [show (String.mk k.data) = k from rfl]
    rw [mapGet_mapSet, if_pos rfl]
  · intro l1 l2 s hs
    unfold parseEnvToMap
    rw [List.foldl_append, List.foldl_append, List.foldl_cons]
    rcases hs with h | h <;> simp [h]

theorem strLen_le_zero_iff (s : String) : s.length ≤ 0 ↔ s = "" := by
  rw [Nat.le_zero]
  constructor
  · intro h
    cases s with
    | mk d =>
      have hd : d = [] := List.length_eq_zero.mp h
      subst hd
      rfl
  · intro h
    subst h
    rfl

/-- C3: environment-stage value application. For a registered flag not
yet in the ledger whose direct environment value exists, `ParseEnv`'s
per-flag step reduces to `applyEnvValue`; there a boolean-capability
flag with an empty value is force-set to `"true"` with the setter's
error ignored (the step never errors and still ledgers the flag), a
rejected value aborts with an environment-variable error carrying the
raw value and the flag name, and an accepted value is stored and the
flag ledgered. -/
theorem env_stage_value_application (fsys : String → Option String)
    (env : List (String × String)) (f : FlagSet) (rf flag : Flag)
    (envValue : String)
    (h1 : mapGet f.actual rf.name = none)
    (h2 : f.formal.find? (fun g => g.name == rf.name) = some flag)
    (h3 : mapGet env (flagNameToEnvKey flag.name f.envPfx) = some envValue) :
    processEnvFlag fsys env f rf = applyEnvValue f flag rf.name envValue ∧
    (flag.isBoolFlag = true → envValue = "" →
      (applyEnvValue f flag rf.name envValue).2 = none ∧
      (mapGet (applyEnvValue f flag rf.name envValue).1.actual rf.name).isSome
        = true ∧
      mapGet (applyEnvValue f flag rf.name envValue).1.values rf.name =
        (if flag.setOk "true" = true then some "true"
         else mapGet f.values rf.name)) ∧
    (flag.isBoolFlag = true → envValue ≠ "" → flag.setOk envValue = false →
      applyEnvValue f flag rf.name envValue =
        (f, some (Err.invalidBoolEnv envValue rf.name))) ∧
    (flag.isBoolFlag = false → flag.setOk envValue = false →
      applyEnvValue f flag rf.name envValue =
        (f, some (Err.invalidValueEnv envValue rf.name))) ∧
    ((flag.isBoolFlag = false ∨ envValue ≠ "") → flag.setOk envValue = true →
      applyEnvValue f flag rf.name envValue =
        (markApplied (setValue f rf.name envValue) rf.name flag, none)) := by
  refine ⟨?_, ?_, ?_, ?_, ?_⟩
  · unfold processEnvFlag
    dsimp only
    rw [h1]
    simp only [Option.isSome_none, Bool.false_eq_true, if_false]
    rw [h2]
    dsimp only
    rw [h3]
  · intro hbool hempty
    subst hempty
    unfold applyEnvValue
    dsimp only
    rw [hbool]
    rw [if_pos rfl]
    rw [if_neg (by decide : ¬ ¬ (("" : String).length ≤ 0))]
    cases hsk : flag.setOk "true" with
    | true =>
      simp only [hsk, if_pos rfl]
      refine ⟨trivial, ?_, ?_⟩ <;> simp [markApplied, setValue, mapGet_mapSet]
    | false =>
      simp only [hsk, Bool.false_eq_true, if_false]
      refine ⟨trivial, ?_, ?_⟩ <;> simp [markApplied, setValue, mapGet_mapSet]
  · intro hbool hne hrej
    unfold applyEnvValue
    dsimp only
    rw [hbool, if_pos rfl]
    rw [if_pos (fun hle => hne ((strLen_le_zero_iff envValue).mp hle))]
    rw [hrej]
    simp
  · intro hbool hrej
    unfold applyEnvValue
    dsimp only
    rw [hbool]
    simp only [Bool.false_eq_true, if_false, hrej]
  · intro hd hok
    unfold applyEnvValue
    dsimp only
    cases hb : flag.isBoolFlag with
    | false =>
      simp only [Bool.false_eq_true, if_false, hok]
      simp
    | true =>
      have hne : envValue ≠ "" := by
        rcases hd with h | h
        · rw [hb] at h; exact absurd h (by decide)
        · exact h
      rw [if_pos rfl]
      rw [if_pos (fun hle => hne ((strLen_le_zero_iff envValue).mp hle))]
      rw [hok]
      simp

/-- C5: secret indirection. For a registered flag not in the ledger whose
direct environment key `K` is absent: with indirection disabled the flag
is skipped; with it enabled, an absent `K_FILE` skips, an empty `K_FILE`
fails with the empty-`_FILE` configuration error, a read failure fails
with an error naming the path and the key, and a successful read hands
the file's contents — trimmed at both ends exactly when content-trimming
is enabled — to the usual value application; trimming strips only leading
and trailing whitespace. -/
theorem secret_indirection_resolution (fsys : String → Option String)
    (env : List (String × String)) (f : FlagSet) (rf flag : Flag)
    (h1 : mapGet f.actual rf.name = none)
    (h2 : f.formal.find? (fun g => g.name == rf.name) = some flag)
    (h3 : mapGet env (flagNameToEnvKey flag.name f.envPfx) = none) :
    (f.readUnderscoreFile = false →
      processEnvFlag fsys env f rf = (f, none)) ∧
    (f.readUnderscoreFile = true →
      mapGet env (flagNameToEnvKey flag.name f.envPfx ++ "_FILE") = none →
      processEnvFlag fsys env f rf = (f, none)) ∧
    (f.readUnderscoreFile = true →
      mapGet env (flagNameToEnvKey flag.name f.envPfx ++ "_FILE") = some "" →
      processEnvFlag fsys env f rf = (f, some Err.emptyUnderscoreFile)) ∧
    (∀ path, f.readUnderscoreFile = true →
      mapGet env (flagNameToEnvKey flag.name f.envPfx ++ "_FILE") = some path →
      path ≠ "" → fsys path = none →
      processEnvFlag fsys env f rf =
        (f, some (Err.couldNotReadFile path
          (flagNameToEnvKey flag.name f.envPfx ++ "_FILE")))) ∧
    (∀ path content, f.readUnderscoreFile = true →
      mapGet env (flagNameToEnvKey flag.name f.envPfx ++ "_FILE") = some path →
      path ≠ "" → fsys path = some content →
      processEnvFlag fsys env f rf =
        applyEnvValue f flag rf.name
          (if f.trimFileContent = true then trimSpace content else content)) ∧
    (∀ s : String, ∃ pre post : List Char,
      s.data = pre ++ (trimSpace s).data ++ post ∧
        pre.all goIsSpace ∧ post.all goIsSpace) := by
  have hbase : processEnvFlag fsys env f rf =
      (if ¬ f.readUnderscoreFile then (f, none)
       else
        match mapGet env (flagNameToEnvKey flag.name f.envPfx ++ "_FILE") with
        | none => (f, none)
        | some path =>
          if path.length ≤ 0 then (f, some Err.emptyUnderscoreFile)
          else
            match fsys path with
            | none =>
              (f, some (Err.couldNotReadFile path
                (flagNameToEnvKey flag.name f.envPfx ++ "_FILE")))
            | some fileBytes =>
              applyEnvValue f flag rf.name
                (if f.trimFileContent then trimSpace fileBytes
                 else fileBytes)) := by
    unfold processEnvFlag
    dsimp only
    rw [h1]
    simp only [Option.isSome_none, Bool.false_eq_true, if_false]
    rw [h2]
    dsimp only
    rw [h3]
  refine ⟨?_, ?_, ?_, ?_, ?_, trimSpace_strips_only_ends⟩
  · intro hru
    rw [hbase, hru]
    simp
  · intro hru hfile
    rw [hbase, hru, hfile]
    simp
  · intro hru hfile
    rw [hbase, hru, hfile]
    simp
  · intro path hru hfile hpne hread
    rw [hbase, hru, hfile]
    simp only [Bool.true_eq_false, not_true_eq_false, if_false]
    rw [if_neg (fun hle => hpne ((strLen_le_zero_iff path).mp hle))]
    rw [hread]
  · intro path content hru hfile hpne hread
    rw [hbase, hru, hfile]
    simp only [Bool.true_eq_false, not_true_eq_false, if_false]
    rw [if_neg (fun hle => hpne ((strLen_le_zero_iff path).mp hle))]
    rw [hread]

/-- C10: `ParseEnv`'s defensive unknown-name branch is unreachable: for
every flag set, environment input and filesystem, `ParseEnv` never
returns the "environment variable provided but not defined" error and
never returns `ErrHelp`, because it iterates over the registered-flags
table and looks each visited name up in that same table. -/
theorem parseEnv_unknown_branch_unreachable (fsys : String → Option String)
    (f : FlagSet) (environ : List String) :
    isEnvUnknownOrHelpErr (ParseEnv fsys f environ).2 = false :=
  parseEnvLoop_not_unknown fsys (parseEnvToMap environ) f.formal f
    (fun _ hg => hg)

/-! ### Plain-text line splitting -/

theorem splitLine_at_first_delim (pre : List Char) (c : Char)
    (post : List Char)
    (hpre : ∀ d ∈ pre, (d == '=' || d == ' ' || d == ':') = false)
    (hc : (c == '=' || c == ' ' || c == ':') = true) :
    splitLine ⟨pre ++ c :: post⟩ = (trimSpace ⟨pre⟩, trimSpace ⟨post⟩, true) := by
  have hidx : findDelimIdx ⟨pre ++ c :: post⟩ = some pre.length := by
    unfold findDelimIdx
    rw [show (String.mk (pre ++ c :: post)).data = pre ++ c :: post from rfl]
    rw [List.findIdx?_append]
    rw [List.findIdx?_eq_none_iff.mpr hpre]
    simp [List.findIdx?_cons, hc]
  have htake : (String.mk (pre ++ c :: post)).data.take pre.length = pre :=
    List.take_left pre (c :: post)
  have hdrop : (String.mk (pre ++ c :: post)).data.drop (pre.length + 1)
      = post := by
    rw [show (String.mk (pre ++ c :: post)).data =
      (pre ++ [c]) ++ post by simp]
    exact List.drop_left' (by simp)
  unfold splitLine
  rw [hidx]
  dsimp only
  rw [htake, hdrop]

theorem splitLine_no_delim (line : String)
    (h : ∀ d ∈ line.data, (d == '=' || d == ' ' || d == ':') = false) :
    splitLine line = (line, "", false) := by
  unfold splitLine findDelimIdx
  rw [List.findIdx?_eq_none_iff.mpr h]

/-- C6: plain-text line parsing. Blank lines, lines starting with `'#'`
and the literal `"---"` are skipped; a line with a delimiter is split at
the first `'='`, `' '` or `':'` into a trimmed name and trimmed value
with `hasValue = true`; a line with no delimiter is the bare flag name
with no value; and a bare name naming a ledger-free boolean-capability
flag force-sets it (storing `"true"` when its setter accepts it) without
error. -/
theorem plain_text_line_parsing :
    (∀ f : FlagSet, processTextLine f "" = (f, none)) ∧
    (∀ (f : FlagSet) (line : String), line.data.head? = some '#' →
      processTextLine f line = (f, none)) ∧
    (∀ f : FlagSet, processTextLine f "---" = (f, none)) ∧
    (∀ (pre : List Char) (c : Char) (post : List Char),
      (∀ d ∈ pre, (d == '=' || d == ' ' || d == ':') = false) →
      (c == '=' || c == ' ' || c == ':') = true →
      splitLine ⟨pre ++ c :: post⟩ =
        (trimSpace ⟨pre⟩, trimSpace ⟨post⟩, true)) ∧
    (∀ line : String,
      (∀ d ∈ line.data, (d == '=' || d == ' ' || d == ':') = false) →
      splitLine line = (line, "", false)) ∧
    (∀ (f : FlagSet) (line : String) (flag : Flag),
      (∀ d ∈ line.data, (d == '=' || d == ' ' || d == ':') = false) →
      line.length ≠ 0 → line.data.head? ≠ some '#' → line ≠ "---" →
      mapGet f.actual line = none →
      f.formal.find? (fun g => g.name == line) = some flag →
      flag.isBoolFlag = true →
      processTextLine f line =
        (markApplied (if flag.setOk "true" = true then setValue f line "true"
          else f) line flag, none) ∧
      (flag.setOk "true" = true →
        mapGet (processTextLine f line).1.values line = some "true")) := by
  refine ⟨?_, ?_, ?_, splitLine_at_first_delim, splitLine_no_delim, ?_⟩
  · intro f
    rfl
  · intro f line h
    unfold processTextLine
    by_cases hlen : line.length = 0
    · rw [if_pos hlen]
    · rw [if_neg hlen, if_pos (Or.inl h)]
  · intro f
    unfold processTextLine
    rw [if_neg (by decide), if_pos (Or.inr rfl)]
  · intro f line flag hnod hlen hhead hdash hled hfind hbool
    have heq : processTextLine f line =
        (markApplied (if flag.setOk "true" = true then setValue f line "true"
          else f) line flag, none) := by
      unfold processTextLine
      rw [if_neg hlen]
      rw [if_neg (by rintro (h | h); exacts [hhead h, hdash h])]
      rw [splitLine_no_delim line hnod]
      simp only [Bool.false_eq_true, if_false]
      rw [hled]
      simp only [Option.isSome_none, Bool.false_eq_true, if_false]
      rw [hfind]
      dsimp only
      rw [hbool]
      simp
    refine ⟨heq, fun hsk => ?_⟩
    rw [heq]
    dsimp only
    rw [hsk]
    simp only [if_pos rfl]
    dsimp [markApplied, setValue]
    rw [mapGet_mapSet, if_pos rfl]

/-! ### Unknown names in the file stage -/

theorem parseTextLoop_abort (pre : List String) (f : FlagSet) (line : String)
    (rest : List String) (f' f'' : FlagSet) (e : Err)
    (hpre : parseTextLoop f pre = (f', none))
    (hline : processTextLine f' line = (f'', some e)) :
    parseTextLoop f (pre ++ line :: rest) = (f'', some e) := by
  induction pre generalizing f with
  | nil =>
    have hf : f' = f := by
      have : (f, (none : Option Err)) = (f', none) := hpre
      exact (Prod.mk.injEq _ _ _ _).mp this.symm |>.1
    subst hf
    rw [List.nil_append]
    unfold parseTextLoop
    rw [hline]
  | cons l pre' ih =>
    rw [List.cons_append]
    unfold parseTextLoop at hpre ⊢
    cases hstep : processTextLine f l with
    | mk f1 e1 =>
      rw [hstep] at hpre
      cases e1 with
      | none => exact ih f1 hpre
      | some err => simp at hpre

/-- The name the plain-text stage looks up for a non-skipped line: the
split name, reverse-mapped through the Name Mapper only when a delimiter
was found (src/extras.go lines 200–221). -/
def textLineName (f : FlagSet) (line : String) : String :=
  if (splitLine line).2.2 then reverseMapName f.formal f.envPfx (splitLine line).1
  else (splitLine line).1

theorem processTextLine_unfolded (f : FlagSet) (line : String)
    (hlen : line.length ≠ 0) (hhead : line.data.head? ≠ some '#')
    (hdash : line ≠ "---")
    (hled : mapGet f.actual (textLineName f line) = none)
    (hfind : f.formal.find? (fun g => g.name == textLineName f line) = none) :
    processTextLine f line =
      (if (textLineName f line == "help" || textLineName f line == "h") = true
       then (emitUsage f, some Err.help)
       else (f, some (Err.configVarNotDefined (textLineName f line)))) := by
  unfold processTextLine
  rw [if_neg hlen]
  rw [if_neg (by rintro (h | h); exacts [hhead h, hdash h])]
  dsimp only
  unfold textLineName at hled hfind ⊢
  rw [hled]
  simp only [Option.isSome_none, Bool.false_eq_true, if_false]
  rw [hfind]

/-- C7: unknown-name handling in the plain-text file stage. A parsed name
absent from the registered-flags table makes the stage fail immediately
with the configuration-variable error — unless the name is `"help"` or
`"h"`, in which case usage is emitted and the distinguished `ErrHelp`
result is returned — and an erroring line aborts the loop so that no
later line is applied while flags applied by earlier lines remain in the
returned state. -/
theorem file_stage_unknown_name_handling :
    (∀ (f : FlagSet) (line : String),
      line.length ≠ 0 → line.data.head? ≠ some '#' → line ≠ "---" →
      mapGet f.actual (textLineName f line) = none →
      f.formal.find? (fun g => g.name == textLineName f line) = none →
      textLineName f line ≠ "help" → textLineName f line ≠ "h" →
      processTextLine f line =
        (f, some (Err.configVarNotDefined (textLineName f line)))) ∧
    (∀ (f : FlagSet) (line : String),
      line.length ≠ 0 → line.data.head? ≠ some '#' → line ≠ "---" →
      mapGet f.actual (textLineName f line) = none →
      f.formal.find? (fun g => g.name == textLineName f line) = none →
      (textLineName f line = "help" ∨ textLineName f line = "h") →
      processTextLine f line = (emitUsage f, some Err.help) ∧
        (emitUsage f).usageCalled = true) ∧
    (∀ (pre : List String) (f : FlagSet) (line : String) (rest : List String)
      (f' f'' : FlagSet) (e : Err),
      parseTextLoop f pre = (f', none) →
      processTextLine f' line = (f'', some e) →
      parseTextLoop f (pre ++ line :: rest) = (f'', some e)) := by
  refine ⟨?_, ?_, parseTextLoop_abort⟩
  · intro f line hlen hhead hdash hled hfind hnh hnh2
    rw [processTextLine_unfolded f line hlen hhead hdash hled hfind]
    rw [if_neg ?_]
    simp only [Bool.or_eq_true, beq_iff_eq]
    rintro (h | h)
    exacts [hnh h, hnh2 h]
  · intro f line hlen hhead hdash hled hfind hh
    refine ⟨?_, rfl⟩
    rw [processTextLine_unfolded f line hlen hhead hdash hled hfind]
    rw [if_pos ?_]
    simp only [Bool.or_eq_true, beq_iff_eq]
    rcases hh with h | h
    exacts [Or.inl h, Or.inr h]

/-- C4: reverse name-mapping round-trip for config-file keys. A file key
equal to a registered flag's computed environment key is rewritten to
that flag's literal name (under the spec's §4.2 proviso that no other
registered name maps to the same key, collisions being caller error),
and concretely a plain-text line `APP_LAST_NAME: foo` as well as a YAML
key `APP_LAST_NAME` with scalar `foo` (prefix `APP`) resolve flag
`last-name` to value `foo`. -/
theorem reverse_name_mapping_roundtrip :
    (∀ (formal : List Flag) (p n : String) (g : Flag),
      g ∈ formal → g.name = n →
      (∀ g' ∈ formal,
        flagNameToEnvKey g'.name p = flagNameToEnvKey n p → g'.name = n) →
      reverseMapName formal p (flagNameToEnvKey n p) = n) ∧
    (parseTextLoop
      (FlagSet.mk [Flag.mk "last-name" false (fun _ => true)] [] []
        "APP" false false false) ["APP_LAST_NAME: foo"]).2 = none ∧
    mapGet (parseTextLoop
      (FlagSet.mk [Flag.mk "last-name" false (fun _ => true)] [] []
        "APP" false false false) ["APP_LAST_NAME: foo"]).1.values "last-name"
      = some "foo" ∧
    (parseYamlLoop
      (FlagSet.mk [Flag.mk "last-name" false (fun _ => true)] [] []
        "APP" false false false)
      [("APP_LAST_NAME", YamlNode.mk YamlKind.scalar "foo" 1)]).2 = none ∧
    mapGet (parseYamlLoop
      (FlagSet.mk [Flag.mk "last-name" false (fun _ => true)] [] []
        "APP" false false false)
      [("APP_LAST_NAME", YamlNode.mk YamlKind.scalar "foo" 1)]).1.values
      "last-name" = some "foo" := by
  refine ⟨?_, by decide, by decide, by decide, by decide⟩
  intro formal p n g hg hgname huniq
  unfold reverseMapName
  have hfound : (formal.find?
      (fun g' => flagNameToEnvKey g'.name p == flagNameToEnvKey n p)).isSome :=
    List.find?_isSome.mpr ⟨g, hg, by simp [hgname]⟩
  cases hfind : formal.find?
      (fun g' => flagNameToEnvKey g'.name p == flagNameToEnvKey n p) with
  | none => rw [hfind] at hfound; simp at hfound
  | some g' =>
    dsimp only
    have hp := List.find?_some hfind
    have hm := List.mem_of_find?_eq_some hfind
    exact huniq g' hm (by simpa using hp)

/-- C8: YAML stage value handling. `UnmarshalYAML` records a decode error
(leaving the value empty) exactly for non-scalar nodes and records the
scalar's original textual form for scalar nodes; a processed key whose
cell recorded a decode error fails with an error citing the cell's source
line number; and a scalar cell's recorded string — never a decoded native
value — is what reaches the flag's setter, being stored verbatim on
success and cited verbatim in the rejection error. -/
theorem yaml_stage_scalar_handling :
    (∀ node : YamlNode, node.kind = YamlKind.scalar →
      unmarshalYAML node = yamlValue.mk node.text false node.line) ∧
    (∀ node : YamlNode, node.kind ≠ YamlKind.scalar →
      unmarshalYAML node = yamlValue.mk "" true node.line) ∧
    (∀ (f : FlagSet) (name0 : String) (cell : yamlValue) (flag : Flag),
      mapGet f.actual (reverseMapName f.formal f.envPfx name0) = none →
      f.formal.find?
        (fun g => g.name == reverseMapName f.formal f.envPfx name0) =
        some flag →
      (cell.err = true →
        processYamlEntry f name0 cell =
          (f, some (Err.invalidValueYAMLLine cell.value
            (reverseMapName f.formal f.envPfx name0) cell.line))) ∧
      (cell.err = false → flag.setOk cell.value = true →
        processYamlEntry f name0 cell =
          (markApplied
            (setValue f (reverseMapName f.formal f.envPfx name0) cell.value)
            (reverseMapName f.formal f.envPfx name0) flag, none)) ∧
      (cell.err = false → flag.setOk cell.value = false →
        processYamlEntry f name0 cell =
          (f, some (Err.invalidValueConfig cell.value
            (reverseMapName f.formal f.envPfx name0))))) := by
  refine ⟨?_, ?_, ?_⟩
  · intro node h
    unfold unmarshalYAML
    rw [if_neg (by simp [h])]
  · intro node h
    unfold unmarshalYAML
    rw [if_pos h]
  · intro f name0 cell flag hled hfind
    have hbase : processYamlEntry f name0 cell =
        (if cell.err then
          (f, some (Err.invalidValueYAMLLine cell.value
            (reverseMapName f.formal f.envPfx name0) cell.line))
         else if flag.setOk cell.value then
          (markApplied
            (setValue f (reverseMapName f.formal f.envPfx name0) cell.value)
            (reverseMapName f.formal f.envPfx name0) flag, none)
         else
          (f, some (Err.invalidValueConfig cell.value
            (reverseMapName f.formal f.envPfx name0)))) := by
      unfold processYamlEntry
      dsimp only
      rw [hled]
      simp only [Option.isSome_none, Bool.false_eq_true, if_false]
      rw [hfind]
    refine ⟨?_, ?_, ?_⟩
    · intro herr
      rw [hbase, herr]
      simp
    · intro herr hok
      rw [hbase, herr, hok]
      simp
    · intro herr hrej
      rw [hbase, herr, hrej]
      simp

/-! ### Witnesses -/

/-- C3 witness: a ledger-free boolean flag `b` with env entry `B=` is
force-set to `"true"` with no error and is ledgered. -/
theorem env_stage_value_application_witness :
    (applyEnvValue
      (FlagSet.mk [Flag.mk "b" true (fun s => s == "true")] [] [] "" false
        false false)
      (Flag.mk "b" true (fun s => s == "true")) "b" "").2 = none ∧
    (mapGet (applyEnvValue
      (FlagSet.mk [Flag.mk "b" true (fun s => s == "true")] [] [] "" false
        false false)
      (Flag.mk "b" true (fun s => s == "true")) "b" "").1.actual "b").isSome
      = true ∧
    mapGet (applyEnvValue
      (FlagSet.mk [Flag.mk "b" true (fun s => s == "true")] [] [] "" false
        false false)
      (Flag.mk "b" true (fun s => s == "true")) "b" "").1.values "b" =
      (if (Flag.mk "b" true (fun s => s == "true")).setOk "true" = true
       then some "true"
       else mapGet (FlagSet.mk [Flag.mk "b" true (fun s => s == "true")]
         [] [] "" false false false).values "b") :=
  (env_stage_value_application (fun _ => none) [("B", "")]
    (FlagSet.mk [Flag.mk "b" true (fun s => s == "true")] [] [] "" false
      false false)
    (Flag.mk "b" true (fun s => s == "true"))
    (Flag.mk "b" true (fun s => s == "true")) "" rfl rfl rfl).2.1 rfl rfl

/-- C4 witness: the reverse lookup of `APP_LAST_NAME` over the singleton
registry `last-name` yields `last-name`. -/
theorem reverse_name_mapping_roundtrip_witness :
    reverseMapName [Flag.mk "last-name" false (fun _ => true)] "APP"
      (flagNameToEnvKey "last-name" "APP") = "last-name" :=
  reverse_name_mapping_roundtrip.1
    [Flag.mk "last-name" false (fun _ => true)] "APP" "last-name"
    (Flag.mk "last-name" false (fun _ => true))
    (List.mem_singleton.mpr rfl) rfl
    (fun g' hg' _ => by rw [List.mem_singleton.mp hg'])

/-- C5 witness: with indirection and trimming enabled,
`YOUR_SECRET_FILE=./secret.txt` and a file containing `" top\n"` resolve
flag `your-secret` through `applyEnvValue` with the trimmed contents. -/
theorem secret_indirection_resolution_witness :
    processEnvFlag
      (fun p => if p == "./secret.txt" then some " top\n" else none)
      [("YOUR_SECRET_FILE", "./secret.txt")]
      (FlagSet.mk [Flag.mk "your-secret" false (fun _ => true)] [] [] ""
        true true false)
      (Flag.mk "your-secret" false (fun _ => true)) =
    applyEnvValue
      (FlagSet.mk [Flag.mk "your-secret" false (fun _ => true)] [] [] ""
        true true false)
      (Flag.mk "your-secret" false (fun _ => true)) "your-secret"
      (trimSpace " top\n") :=
  (secret_indirection_resolution
    (fun p => if p == "./secret.txt" then some " top\n" else none)
    [("YOUR_SECRET_FILE", "./secret.txt")]
    (FlagSet.mk [Flag.mk "your-secret" false (fun _ => true)] [] [] ""
      true true false)
    (Flag.mk "your-secret" false (fun _ => true))
    (Flag.mk "your-secret" false (fun _ => true))
    rfl rfl rfl).2.2.2.2.1 "./secret.txt" " top\n" rfl rfl (by decide) rfl

/-- C6 witness: the bare line `bool2` applied to a ledger-free boolean
flag `bool2` stores `"true"`. -/
theorem plain_text_line_parsing_witness :
    mapGet (processTextLine
      (FlagSet.mk [Flag.mk "bool2" true (fun _ => true)] [] [] "" false
        false false) "bool2").1.values "bool2" = some "true" :=
  ((plain_text_line_parsing.2.2.2.2.2
    (FlagSet.mk [Flag.mk "bool2" true (fun _ => true)] [] [] "" false
      false false)
    "bool2" (Flag.mk "bool2" true (fun _ => true))
    (by decide) (by decide) (by decide) (by decide) rfl rfl rfl).2) rfl

/-- C7 witness: an empty registry rejects the line `unknown-flag` with
the configuration-variable error, and the loop stops there, leaving a
following line unconsumed. -/
theorem file_stage_unknown_name_handling_witness :
    processTextLine (FlagSet.mk [] [] [] "" false false false)
      "unknown-flag" =
      (FlagSet.mk [] [] [] "" false false false,
        some (Err.configVarNotDefined
          (textLineName (FlagSet.mk [] [] [] "" false false false)
            "unknown-flag"))) ∧
    parseTextLoop (FlagSet.mk [] [] [] "" false false false)
      ([] ++ "unknown-flag" :: ["x=1"]) =
      (FlagSet.mk [] [] [] "" false false false,
        some (Err.configVarNotDefined "unknown-flag")) :=
  ⟨file_stage_unknown_name_handling.1
    (FlagSet.mk [] [] [] "" false false false) "unknown-flag"
    (by decide) (by decide) (by decide) rfl rfl (by decide) (by decide),
   file_stage_unknown_name_handling.2.2 []
    (FlagSet.mk [] [] [] "" false false false) "unknown-flag" ["x=1"]
    (FlagSet.mk [] [] [] "" false false false)
    (FlagSet.mk [] [] [] "" false false false)
    (Err.configVarNotDefined "unknown-flag") rfl rfl⟩

/-- C8 witness: a scalar node's text is recorded verbatim, and a mapping
node under key `obj` at line 3 makes the YAML stage fail citing line 3. -/
theorem yaml_stage_scalar_handling_witness :
    unmarshalYAML (YamlNode.mk YamlKind.scalar "42" 7) =
      yamlValue.mk "42" false 7 ∧
    processYamlEntry
      (FlagSet.mk [Flag.mk "obj" false (fun _ => true)] [] [] "" false
        false false) "obj" (yamlValue.mk "" true 3) =
      (FlagSet.mk [Flag.mk "obj" false (fun _ => true)] [] [] "" false
        false false, some (Err.invalidValueYAMLLine "" "obj" 3)) :=
  ⟨yaml_stage_scalar_handling.1 (YamlNode.mk YamlKind.scalar "42" 7) rfl,
   (yaml_stage_scalar_handling.2.2
    (FlagSet.mk [Flag.mk "obj" false (fun _ => true)] [] [] "" false
      false false) "obj" (yamlValue.mk "" true 3)
    (Flag.mk "obj" false (fun _ => true)) rfl rfl).1 rfl⟩

/-- C9 witness: `KEY=val` binds `KEY ↦ "val"`, and the degenerate entry
`noeq` is dropped without affecting the rest of the table. -/
theorem env_map_builder_semantics_witness :
    mapGet (parseEnvToMap ([] ++ [⟨"KEY".data ++ '=' :: "val".data⟩]))
      "KEY" = some "val" ∧
    parseEnvToMap (["A=1"] ++ "noeq" :: []) =
      parseEnvToMap (["A=1"] ++ []) :=
  ⟨env_map_builder_semantics.1 [] "KEY" "val" (by decide) (by decide),
   env_map_builder_semantics.2 ["A=1"] [] "noeq" (Or.inl (by decide))⟩

end SmartFlag
